import Mathlib

/-!
Verification development for the turnt expect-style test runner
(`turnt/__main__.py`).  The Python functions are shallowly embedded as
executable Lean definitions: dictionaries become association lists that
keep insertion order, machine file systems become explicit functions
from path to optional contents, and Python exceptions (ValueError from
tuple unpacking and from `int`, IOError from reading a missing file)
become `Option` results.  Characters are modelled at ASCII fidelity,
which covers every input the claims exercise.
-/

namespace Turnt

/-- Word characters as matched by the regex class used in directive
extraction (alphanumeric or underscore). -/
def isWordChar (c : Char) : Bool := c.isAlphanum || c == '_'

/-- Vertical tab. -/
def vtab : Char := Char.ofNat 11

/-- Form feed. -/
def ffeed : Char := Char.ofNat 12

/-- Single quote character. -/
def squote : Char := Char.ofNat 39

/-- Whitespace characters as matched by the regex class and by
Python string splitting, at ASCII fidelity. -/
def isSpaceChar (c : Char) : Bool :=
  c == ' ' || c == '\t' || c == '\n' || c == '\r' || c == vtab || c == ffeed

/-- Helper for `pySplit`: accumulate the current token (reversed) while
walking the characters. -/
def pySplitAux (acc : List Char) : List Char → List (List Char)
  | [] => if acc.isEmpty then [] else [acc.reverse]
  | c :: cs =>
    if isSpaceChar c then
      if acc.isEmpty then pySplitAux [] cs
      else acc.reverse :: pySplitAux [] cs
    else pySplitAux (c :: acc) cs

/-- Model of Python `str.split()` with no argument: split on runs of
whitespace, producing no empty tokens. -/
def pySplit (s : String) : List String :=
  (pySplitAux [] s.data).map List.asString

/-- Model of Python `int(s)` returning `none` where `int` raises
`ValueError`: optional surrounding whitespace, an optional sign, then a
nonempty run of decimal digits.  (Digit grouping underscores and
non-ASCII digits are not modelled; no claim exercises them.) -/
def pyInt (s : String) : Option Int :=
  let t := s.data.dropWhile isSpaceChar
  let t := (t.reverse.dropWhile isSpaceChar).reverse
  let signDigits : Bool × List Char :=
    match t with
    | '-' :: r => (true, r)
    | '+' :: r => (false, r)
    | r => (false, r)
  let neg := signDigits.1
  let ds := signDigits.2
  if ds ≠ [] ∧ ds.all Char.isDigit then
    let n : Nat := ds.foldl (fun acc c => acc * 10 + (c.toNat - 48)) 0
    some (if neg then -(n : Int) else (n : Int))
  else none

/-- Model of inserting one binding into a Python dict represented as an
association list in insertion order: an existing key keeps its position
and gets the new value, a new key is appended. -/
def dictInsert (m : List (String × String)) (k v : String) :
    List (String × String) :=
  if m.any (fun p => p.1 == k) then
    m.map (fun p => if p.1 == k then (p.1, v) else p)
  else m ++ [(k, v)]

/-- Scanner for `re.findall` over the directive pattern: word boundary,
the key, a colon, one or more whitespace characters, then a captured
maximal run of non-newline characters.  `prevWord` records whether the
character just before the current position is a word character (false at
the start of the text); scanning resumes after the end of each match.
`fuel` only forces termination: every step consumes at least one
character, so any fuel at least the text length gives the scan's value. -/
def scanOptionsF (key : List Char) : Nat → Bool → List Char → List (List Char)
  | 0, _, _ => []
  | _ + 1, _, [] => []
  | fuel + 1, prevWord, c :: cs =>
    if (prevWord != isWordChar c) && (key ++ [':']).isPrefixOf (c :: cs) then
      let rest := (c :: cs).drop (key.length + 1)
      let ws := rest.takeWhile isSpaceChar
      let rest1 := rest.dropWhile isSpaceChar
      if 0 < ws.length then
        let val := rest1.takeWhile (fun d => !(d == '\n'))
        let rest2 := rest1.dropWhile (fun d => !(d == '\n'))
        let prevW := match val.getLast? with
          | some d => isWordChar d
          | none => false
        val :: scanOptionsF key fuel prevW rest2
      else
        scanOptionsF key fuel (isWordChar c) cs
    else
      scanOptionsF key fuel (isWordChar c) cs

/-- Model of `str.upper` at ASCII fidelity, applied characterwise. -/
def upperChar (c : Char) : Char := c.toUpper

/-- Model of `extract_options`: find every occurrence of the pattern
built from the upper-cased key anywhere in the text, returning the
captured values in document order. -/
def extract_options (text key : String) : List String :=
  (scanOptionsF (key.data.map upperChar) text.data.length false text.data).map
    List.asString

/-- Model of `extract_single_option`: the first extracted value, or
`none` when there are no instances. -/
def extract_single_option (text key : String) : Option String :=
  match extract_options text key with
  | [] => none
  | o :: _ => some o

/-- Stream shorthand for standard output. -/
def STDOUT : String := "-"

/-- Stream shorthand for standard error. -/
def STDERR : String := "2"

/-- Default diff command string. -/
def DIFF_DEFAULT : String := "diff --new-file --unified"

/-- The setup for a test run, mirroring the `Config` named tuple.  An
absent `-e` option and an empty requested-names list behave identically
in the source (both are falsy), so `envs` is a plain list. -/
structure Config where
  config_name : String
  save : Bool
  diff : Bool
  verbose : Bool
  dump : Bool
  args : Option String
  envs : List String
deriving DecidableEq, Repr

/-- The configuration values describing how to treat tests, mirroring
the `TestEnv` named tuple.  `out_files` is the dict in insertion
order. -/
structure TestEnv where
  name : Option String
  default : Bool
  command : Option String
  out_files : List (String × String)
  return_code : Int
  out_base : String
  out_dir : String
  opts_file : Option String
  diff_cmd : List String
  args : String
  binary : Bool
  todo : Bool
deriving DecidableEq, Repr

/-- The configuration for running a specific test, mirroring the `Test`
named tuple. -/
structure Test where
  env_name : Option String
  test_path : String
  config_dir : String
  command : String
  out_files : List (String × String)
  return_code : Int
  diff_cmd : List String
  todo : Bool
deriving DecidableEq, Repr

/-- One parsed TOML section as consumed by `get_env`: each field records
whether the corresponding key is present (`config_data.get`).  An
`output` table parses to an association list in document order. -/
structure ConfigData where
  default : Option Bool := none
  command : Option String := none
  output : Option (List (String × String)) := none
  return_code : Option Int := none
  diff : Option String := none
  out_base : Option String := none
  out_dir : Option String := none
  opts_file : Option String := none
  binary : Option Bool := none
  todo : Option Bool := none
deriving DecidableEq, Repr

/-- Model of `shlex.split`, restricted to whitespace tokenisation: none
of the diff commands the claims exercise contain quoting or escapes. -/
def shlex_split (s : String) : List String := pySplit s

/-- Model of `get_env`: build a `TestEnv` from one configuration
section, with the source's defaults for absent keys. -/
def get_env (config_data : ConfigData) (name : Option String) : TestEnv :=
  { name := name
    default := config_data.default.getD true
    command := config_data.command
    out_files := config_data.output.getD [("out", STDOUT)]
    return_code := config_data.return_code.getD 0
    diff_cmd := shlex_split (config_data.diff.getD DIFF_DEFAULT)
    out_base := config_data.out_base.getD "out"
    out_dir := config_data.out_dir.getD "."
    opts_file := config_data.opts_file
    args := ""
    binary := config_data.binary.getD false
    todo := config_data.todo.getD false }

/-- A parsed configuration document as dispatched on by `get_envs`: a
document with a top-level `envs` key is multi-environment (its entries
in document order), any other document is single-environment. -/
inductive ConfigBase where
  | single (data : ConfigData)
  | multi (envs : List (String × ConfigData))
deriving DecidableEq, Repr

/-- Model of `get_envs`: list the test environments described in a
config file, filtered by the requested names (all defaults when the
request list is empty). -/
def get_envs (config_base : ConfigBase) (names : List String) : List TestEnv :=
  match config_base with
  | .multi envs =>
    envs.filterMap (fun p =>
      if !names.isEmpty && !names.contains p.1 then none
      else
        let env := get_env p.2 (some p.1)
        if names.isEmpty && !env.default then none
        else some env)
  | .single data =>
    if !names.isEmpty && !names.contains "default" then []
    else
      let env := get_env data none
      if names.isEmpty && !env.default then []
      else [env]

/-- Helper for `override_env`: build the dict of `OUT` directive
key/path pairs, failing (as tuple unpacking does) when a directive value
does not split into exactly two tokens. -/
def buildOutputsAux (m : List (String × String)) :
    List String → Option (List (String × String))
  | [] => some m
  | o :: os =>
    match pySplit o with
    | [k, v] => buildOutputsAux (dictInsert m k v) os
    | _ => none

/-- The dict comprehension over `OUT` directive values in
`override_env`. -/
def buildOutputs (strs : List String) : Option (List (String × String)) :=
  buildOutputsAux [] strs

/-- The `return_code` computation in `override_env`: `int(return_code)
if return_code else env.return_code`, where `none` models the
`ValueError` raised by `int` on a non-integer directive value. -/
def newReturnCode (env : TestEnv) (contents : String) : Option Int :=
  match extract_single_option contents "return" with
  | some s => if s ≠ "" then pyInt s else some env.return_code
  | none => some env.return_code

/-- Model of `override_env`: update a test environment using options
embedded in a test file.  `none` models the unhandled `ValueError`
raised either by unpacking an `OUT` value that is not exactly two
tokens, or by `int` on a non-integer `RETURN` value. -/
def override_env (env : TestEnv) (contents : String) : Option TestEnv :=
  match buildOutputs (extract_options contents "out") with
  | none => none
  | some outputs =>
    let todo := extract_single_option contents "todo"
    match newReturnCode env contents with
    | none => none
    | some rc =>
      some { env with
        command :=
          match extract_single_option contents "cmd" with
          | some s => if s ≠ "" then some s else env.command
          | none => env.command
        out_files := if outputs ≠ [] then outputs else env.out_files
        args :=
          match extract_single_option contents "args" with
          | some s => if s ≠ "" then s else env.args
          | none => env.args
        return_code := rc
        todo :=
          match todo with
          | some s => if s ≠ "" then s == "true" else env.todo
          | none => env.todo }

/-- Helper for `splitSlash`: accumulate the current component
(reversed). -/
def splitSlashAux (acc : List Char) : List Char → List (List Char)
  | [] => [acc.reverse]
  | c :: cs =>
    if c == '/' then acc.reverse :: splitSlashAux [] cs
    else splitSlashAux (c :: acc) cs

/-- Model of Python `str.split` on the separator `/` (keeps empty
components, as `posixpath.normpath` relies on). -/
def splitSlash (l : List Char) : List (List Char) := splitSlashAux [] l

/-- Model of `posixpath.join` with a single extra component: an absolute
second component replaces the first, otherwise a separator is added
unless the first component is empty or already ends in one. -/
def posix_join (a b : List Char) : List Char :=
  match b with
  | '/' :: _ => b
  | _ =>
    if a = [] ∨ a.getLast? = some '/' then a ++ b
    else a ++ '/' :: b

/-- Model of `posixpath.basename`: everything after the last slash. -/
def basenameL (p : List Char) : List Char :=
  (p.reverse.takeWhile (fun c => !(c == '/'))).reverse

/-- Model of `posixpath.dirname`: everything up to the last slash, with
trailing slashes stripped unless the result is all slashes. -/
def dirnameL (p : List Char) : List Char :=
  let head := (p.reverse.dropWhile (fun c => !(c == '/'))).reverse
  if head ≠ [] ∧ head.any (fun c => !(c == '/')) then
    (head.reverse.dropWhile (fun c => c == '/')).reverse
  else head

/-- Index of the last occurrence of a character, if any. -/
def rlastIdx (x : Char) (l : List Char) : Option Nat :=
  match l.reverse.findIdx? (fun c => c == x) with
  | some k => some (l.length - 1 - k)
  | none => none

/-- Model of the stem returned by `posixpath.splitext` on a bare
filename (every call site in the source applies `splitext` to a
basename): cut at the last dot unless only dots precede it. -/
def splitext_stem (name : List Char) : List Char :=
  match rlastIdx '.' name with
  | none => name
  | some di =>
    if (name.take di).all (fun c => c == '.') then name
    else name.take di

/-- Model of `posixpath.normpath`: collapse empty and `.` components,
resolve `..` against preceding components, and preserve the exact
leading-slash count convention of the source algorithm. -/
def normpathL (p : List Char) : List Char :=
  if p = [] then ['.']
  else
    let initialSlashes : Nat :=
      match p with
      | '/' :: '/' :: '/' :: _ => 1
      | '/' :: '/' :: _ => 2
      | '/' :: _ => 1
      | _ => 0
    let comps := splitSlash p
    let dotdot : List Char := ['.', '.']
    let newComps := comps.foldl
      (fun acc comp =>
        if comp = [] ∨ comp = ['.'] then acc
        else if comp ≠ dotdot ∨ (initialSlashes = 0 ∧ acc = [])
            ∨ acc.getLast? = some dotdot then acc ++ [comp]
        else if acc ≠ [] then acc.dropLast
        else acc) []
    let joined := List.intercalate ['/'] newComps
    let res := List.replicate initialSlashes '/' ++ joined
    if res = [] then ['.'] else res

/-- Characters that `shlex.quote` leaves unescaped. -/
def shlexSafe (c : Char) : Bool :=
  c.isAlphanum || c == '_' || c == '@' || c == '%' || c == '+' || c == '=' ||
    c == ':' || c == ',' || c == '.' || c == '/' || c == '-'

/-- Model of `shlex.quote`. -/
def shlex_quote (s : List Char) : List Char :=
  if s = [] then [squote, squote]
  else if s.all shlexSafe then s
  else
    squote ::
      (s.flatMap (fun c =>
        if c == squote then [squote, '"', squote, '"', squote] else [c])) ++
      [squote]

/-- Opening curly brace. -/
def obrace : Char := Char.ofNat 123

/-- Closing curly brace. -/
def cbrace : Char := Char.ofNat 125

/-- Model of `str.format` restricted to the two placeholders the output
templates use.  `fuel` only forces termination (any fuel at least the
template length gives the substitution's value). -/
def substPlaceholders (filename base : List Char) :
    Nat → List Char → List Char
  | 0, _ => []
  | _ + 1, [] => []
  | fuel + 1, c :: cs =>
    if (obrace :: ("filename".data ++ [cbrace])).isPrefixOf (c :: cs) then
      filename ++ substPlaceholders filename base fuel ((c :: cs).drop 10)
    else if (obrace :: ("base".data ++ [cbrace])).isPrefixOf (c :: cs) then
      base ++ substPlaceholders filename base fuel ((c :: cs).drop 6)
    else
      c :: substPlaceholders filename base fuel cs

/-- Model of `format_output_path`: the *actual* output path to be
collected from a test run; stream shorthands are left unchanged, other
names have their placeholders substituted and are resolved relative to
the test file's directory. -/
def format_output_path (name : String) (path : String) : String :=
  if name = STDOUT ∨ name = STDERR then name
  else
    let filename := basenameL path.data
    let base := splitext_stem filename
    List.asString
      (posix_join (dirnameL path.data)
        (substPlaceholders filename (shlex_quote base)
          name.data.length name.data))

/-- Model of `format_expected_path`: the *expected* output file location
for a test environment.  `is_dir` stands for `os.path.isdir path`; a
directory test uses `out_base` inside the directory, a file test uses
the file's stem beside it, and `out_dir` relocates the result. -/
def format_expected_path (env : TestEnv) (ext : String) (path : String)
    (is_dir : Bool) : String :=
  let dnBase : List Char × List Char :=
    if is_dir then (path.data, env.out_base.data)
    else (dirnameL path.data, splitext_stem (basenameL path.data))
  let dn := normpathL (posix_join dnBase.1 env.out_dir.data)
  List.asString (posix_join dn (dnBase.2 ++ '.' :: ext.data))

/-- Model of `get_out_files`: the dict comprehension from expected to
actual output paths, in insertion order with Python dict update
semantics. -/
def get_out_files (env : TestEnv) (path : String) (is_dir : Bool) :
    List (String × String) :=
  env.out_files.foldl
    (fun m kv =>
      dictInsert m (format_expected_path env kv.1 path is_dir)
        (format_output_path kv.2 path))
    []

/-- The completed subprocess data `check_result` consumes: the exit
code and the captured standard-error bytes. -/
structure CompletedProc where
  returncode : Int
  stderr : String
deriving DecidableEq, Repr

/-- Model of `tap_line`: format a TAP success/failure line. -/
def tap_line (ok : Bool) (idx : Nat) (test : Test) : String :=
  (if ok then "ok" else "not ok") ++ " " ++ toString idx ++ " - " ++
    test.test_path ++
    (match test.env_name with
     | some n => if n = "" then "" else " " ++ n
     | none => "")

/-- The comparison loop of `check_result` over the expected/actual
pairs: read the actual capture (a missing capture file is an unhandled
IOError, modelled as `none`), read the expected artifact if it is a
file, and collect the differing and missing expected paths in
iteration order.  `fs` maps a path to its contents when a file exists
there. -/
def compare_outputs (fs : String → Option String) :
    List (String × String) → Option (List String × List String)
  | [] => some ([], [])
  | pair :: rest =>
    match fs pair.2 with
    | none => none
    | some actual =>
      let expected := fs pair.1
      match compare_outputs fs rest with
      | none => none
      | some dm =>
        some ((if expected ≠ some actual then [pair.1] else []) ++ dm.1,
              (if expected = none then [pair.1] else []) ++ dm.2)

/-- The outcome of `check_result`: the success boolean and TAP message
it returns, plus its side effects — the `copyfile` actions performed
(actual source, expected destination, in order) and the stderr bytes
forwarded to diagnostic output, if any. -/
structure CheckOutcome where
  success : Bool
  msg : List String
  copies : List (String × String)
  stderr_out : Option String
deriving DecidableEq, Repr

/-- The update condition of `check_result`: save requested and at least
one artifact differing. -/
def verdict_update (cfg : Config) (differing : List String) : Bool :=
  cfg.save && !differing.isEmpty

/-- The TAP directive annotations of `check_result`, in the order the
source appends them: the skip note when saving, `todo` for an unsaved
todo test, then the differing-but-present and the missing expected
paths. -/
def verdict_directives (cfg : Config) (test : Test)
    (differing missing : List String) : List String :=
  (if verdict_update cfg differing then
    ["skip: updated " ++
      String.intercalate ", " (test.out_files.map (fun p => p.1))]
  else []) ++
  (if test.todo && !verdict_update cfg differing then ["todo"] else []) ++
  (if !(differing.filter (fun fn => !missing.contains fn)).isEmpty then
    ["differing: " ++
      String.intercalate ", " (differing.filter (fun fn => !missing.contains fn))]
  else []) ++
  (if !missing.isEmpty then
    ["missing: " ++ String.intercalate ", " missing]
  else [])

/-- The success boolean of `check_result` once the exit code matches:
no differing artifact, with todo tests always marked successful. -/
def verdict_success (test : Test) (differing : List String) : Bool :=
  if test.todo then true else differing.isEmpty

/-- The TAP line of `check_result` once the exit code matches: the
`tap_line` keyed on artifact equality, with the joined directives as a
trailing comment when there are any. -/
def verdict_line (cfg : Config) (test : Test) (idx : Nat)
    (differing missing : List String) : String :=
  let directives := verdict_directives cfg test differing missing
  if !directives.isEmpty then
    tap_line differing.isEmpty idx test ++ " # " ++
      String.intercalate "; " directives
  else tap_line differing.isEmpty idx test

/-- The result `check_result` builds once the exit code matches, as a
function of the differing/missing lists computed by the comparison
loop. -/
def check_result_verdict (cfg : Config) (test : Test) (idx : Nat)
    (differing missing : List String) : CheckOutcome :=
  { success := verdict_success test differing
    msg := [verdict_line cfg test idx differing missing]
    copies :=
      if verdict_update cfg differing then
        test.out_files.map (fun p => (p.2, p.1))
      else []
    stderr_out := none }

/-- Model of `check_result`: check the results of a single test.  On an
exit-code mismatch it fails immediately with the annotated message and
forwards any captured stderr; otherwise it compares every output pair,
optionally saves, and renders the TAP line with directives.  (The
optional external diff invocation is display-only and is not part of
the outcome.) -/
def check_result (cfg : Config) (test : Test) (proc : CompletedProc)
    (idx : Nat) (fs : String → Option String) : Option CheckOutcome :=
  if proc.returncode ≠ test.return_code then
    some
      { success := false
        msg := [tap_line false idx test,
                if test.return_code ≠ 0 then
                  "# exit code: " ++ toString proc.returncode ++
                    ", expected: " ++ toString test.return_code
                else
                  "# exit code: " ++ toString proc.returncode]
        copies := []
        stderr_out := if proc.stderr ≠ "" then some proc.stderr else none }
  else
    match compare_outputs fs test.out_files with
    | none => none
    | some dm => some (check_result_verdict cfg test idx dm.1 dm.2)

/-- The per-test behaviour `run_tests` invokes: `run_test` as an oracle
from the run configuration, the test, and its one-based index to the
success boolean and report lines.  The refinement claim assumes each
test's individual execution result is the same under both scheduling
modes, which this shared oracle expresses. -/
def ExecFn : Type := Config → Test → Nat → Bool × List String

/-- The sequential branch of `run_tests`: run each test in input order,
conjoin the successes, and emit the report lines as they come. -/
def run_tests_seq (exec : ExecFn) (cfg : Config) (tests : List Test) :
    Bool × List String :=
  tests.enum.foldl
    (fun acc p =>
      let r := exec cfg p.2 (p.1 + 1)
      (acc.1 && r.1, acc.2 ++ r.2))
    (true, [])

/-- The worker pool's finished store: each submitted index paired with
its test's result, listed in an arbitrary completion order. -/
def pool_results (exec : ExecFn) (cfg : Config) (tests : List Test)
    (order : List Nat) : List (Nat × (Bool × List String)) :=
  order.filterMap (fun i => (tests[i]?).map (fun t => (i, exec cfg t (i + 1))))

/-- The parallel branch of `run_tests`: futures are collected in
submission order, each collection blocking on that future's result in
the pool's finished store (`none` models a future that never
completes, which cannot happen when the completion order covers every
submitted index). -/
def run_tests_par (exec : ExecFn) (cfg : Config) (tests : List Test)
    (order : List Nat) : Option (Bool × List String) :=
  tests.enum.foldlM
    (fun acc p =>
      ((pool_results exec cfg tests order).lookup p.1).map
        (fun r => (acc.1 && r.1, acc.2 ++ r.2)))
    (true, [])

/-- Whether a pattern occurs as a contiguous subsequence anywhere in a
text: the scan tries every suffix, including the empty one. -/
def hasOccur (pat : List Char) : List Char → Bool
  | [] => pat.isPrefixOf []
  | c :: cs => pat.isPrefixOf (c :: cs) || hasOccur pat cs

/-- Join a list of lines with single newline separators (the inverse of
splitting a text into lines). -/
def joinLines : List (List Char) → List Char
  | [] => []
  | [l] => l
  | l :: ls => l ++ '\n' :: joinLines ls

/-- One line of a test-unit text, classified for directive extraction:
either an arbitrary non-matching line, or a directive line made of the
(upper-cased) key, a colon, a whitespace run, and a value. -/
inductive LineItem where
  | plain (l : List Char)
  | directive (ws v : List Char)
deriving DecidableEq, Repr

/-- The concrete characters of a classified line, for a given
upper-cased key. -/
def itemLine (K : List Char) : LineItem → List Char
  | .plain l => l
  | .directive ws v => K ++ ':' :: (ws ++ v)

/-- The value a classified line contributes to extraction. -/
def itemVal : LineItem → Option (List Char)
  | .plain _ => none
  | .directive _ v => some v

/-- Well-formedness of a classified line for a given upper-cased key: a
plain line contains no occurrence of the key followed by a colon (in
particular any line carrying the key only in lower case); a directive
line has a nonempty whitespace run and a nonempty value that does not
start with whitespace and contains no newline.  The value is otherwise
arbitrary — it may itself mention the key. -/
def itemOk (K : List Char) : LineItem → Bool
  | .plain l => !hasOccur (K ++ [':']) l
  | .directive ws v =>
    !ws.isEmpty && ws.all isSpaceChar && !v.isEmpty &&
      (match v.head? with
       | some c => !isSpaceChar c
       | none => false) &&
      v.all (fun c => !(c == '\n'))

/-! Concrete fixtures used by counterexamples and witnesses. -/

/-- A run configuration with the given save flag and all other options
off. -/
def exCfg (save : Bool) : Config :=
  { config_name := "turnt.toml", save := save, diff := false
    verbose := false, dump := false, args := none, envs := [] }

/-- A resolved test for path `a.t` with the given todo flag, output
pairs, and environment name. -/
def exTest (todo : Bool) (ofs : List (String × String))
    (en : Option String) : Test :=
  { env_name := en, test_path := "a.t", config_dir := ".", command := ""
    out_files := ofs, return_code := 0, diff_cmd := [], todo := todo }

/-- A test environment with the given output stem and output
directory. -/
def exEnv (ob od : String) : TestEnv :=
  { name := none, default := true, command := none, out_files := []
    return_code := 0, out_base := ob, out_dir := od, opts_file := none
    diff_cmd := [], args := "", binary := false, todo := false }

/-- File system for the todo scenario: the saved artifact holds `old`,
the captured output holds `new`. -/
def exFsDiffer : String → Option String := fun p =>
  if p = "/tmp/o" then some "new\n"
  else if p = "a.out" then some "old\n" else none

/-- File system for the save scenario: two outputs, only the first
differing from its saved artifact. -/
def exFsTwo : String → Option String := fun p =>
  if p = "/tmp/o" then some "new\n"
  else if p = "a.out" then some "old\n"
  else if p = "/tmp/e" then some "x"
  else if p = "a.err" then some "x" else none

end Turnt

open Turnt

/-! ## Claim C5 -/

/-- The environment-resolution filter written from the claim's words:
with a non-empty filter, exactly the environments whose name is in the
filter (exact match, regardless of the default flag; for a
single-environment configuration the literal name `default` matches),
and with an empty filter, exactly the environments whose default flag
is true; in the document's entry order. -/
def get_envs_spec (cb : ConfigBase) (names : List String) : List TestEnv :=
  match cb with
  | .multi envs =>
    if names.isEmpty then
      (envs.map (fun p => get_env p.2 (some p.1))).filter (fun e => e.default)
    else
      (envs.filter (fun p => names.contains p.1)).map
        (fun p => get_env p.2 (some p.1))
  | .single data =>
    if names.isEmpty then
      if (get_env data none).default then [get_env data none] else []
    else
      if names.contains "default" then [get_env data none] else []

/-- C5: for every parsed configuration and requested-names filter,
`get_envs` yields exactly the environments the claim describes — name
matches (ignoring the default flag) for a non-empty filter, with
`default` naming the single-environment case, default-flagged
environments for an empty filter, in document order. -/
theorem C5_get_envs_filter (cb : ConfigBase) (names : List String) :
    get_envs cb names = get_envs_spec cb names := by
  cases cb with
  | single data =>
    by_cases hn : names = []
    · by_cases hd : (get_env data none).default <;>
        simp [get_envs, get_envs_spec, hn, hd]
    · by_cases hc : "default" ∈ names <;>
        simp [get_envs, get_envs_spec, hn, hc]
  | multi envs =>
    by_cases hn : names = []
    · induction envs with
      | nil => simp [get_envs, get_envs_spec, hn]
      | cons p t ih =>
        have ih' := ih
        simp only [get_envs, get_envs_spec, hn] at ih'
        simp at ih'
        by_cases hd : (get_env p.2 (some p.1)).default <;>
          · simp only [get_envs, get_envs_spec, hn]
            simp [List.filterMap_cons, List.filter_cons, hd, ih']
    · induction envs with
      | nil => simp [get_envs, get_envs_spec, hn]
      | cons p t ih =>
        have ih' := ih
        simp only [get_envs, get_envs_spec, hn] at ih'
        simp [hn] at ih'
        by_cases hc : p.1 ∈ names <;>
          · simp only [get_envs, get_envs_spec, hn]
            simp [List.filterMap_cons, List.filter_cons, hc, hn, ih']

/-! ## Claim C4 -/

/-- C4 counterexample: two environments agreeing on all four claimed
inputs (same test path, output key, `out_base`, file case) but with
different `out_dir` values produce different expected-artifact paths,
so the path is not a function of those four inputs alone. -/
theorem C4_out_dir_counterexample :
    (exEnv "out" ".").out_base = (exEnv "out" "sub").out_base ∧
    format_expected_path (exEnv "out" ".") "out" "a.t" false = "./a.out" ∧
    format_expected_path (exEnv "out" "sub") "out" "a.t" false = "sub/a.out" := by
  decide

/-- C4 amended: the expected-artifact path is a pure function of
exactly five inputs — test-unit path, output key, `out_base`,
`out_dir`, and is-directory — so two environments agreeing on
`out_base` and `out_dir` always produce the same path, and no other
environment setting affects the result. -/
theorem C4_expected_path_pure (env₁ env₂ : TestEnv) (ext path : String)
    (is_dir : Bool) (hb : env₁.out_base = env₂.out_base)
    (hd : env₁.out_dir = env₂.out_dir) :
    format_expected_path env₁ ext path is_dir =
      format_expected_path env₂ ext path is_dir := by
  simp only [format_expected_path, hb, hd]

/-- Witness for C4: two concretely different environments agreeing only
on `out_base` and `out_dir` give the same expected path. -/
theorem C4_expected_path_pure_witness :
    format_expected_path (exEnv "out" "sub") "out" "a.t" false =
      format_expected_path
        { exEnv "out" "sub" with
            binary := true
            return_code := 7
            args := "-v"
            todo := true } "out" "a.t" false :=
  C4_expected_path_pure _ _ _ _ _ (by decide) (by decide)

/-! ## Claim C6 -/

/-- C6: on an exit-code mismatch, `check_result` fails immediately: the
failure line is annotated with both codes when the expected code is
nonzero and only the observed code when it is zero, captured stderr
bytes are forwarded, and — uniformly in the file system — no artifact
is read and nothing is saved. -/
theorem C6_exit_code_mismatch (cfg : Config) (test : Test)
    (proc : CompletedProc) (idx : Nat) (fs : String → Option String)
    (h : proc.returncode ≠ test.return_code) :
    check_result cfg test proc idx fs =
      some
        { success := false
          msg := [tap_line false idx test,
                  if test.return_code ≠ 0 then
                    "# exit code: " ++ toString proc.returncode ++
                      ", expected: " ++ toString test.return_code
                  else
                    "# exit code: " ++ toString proc.returncode]
          copies := []
          stderr_out := if proc.stderr ≠ "" then some proc.stderr else none } := by
  simp [check_result, h]

/-- Witness for C6: a concrete exit-code mismatch with expected code
zero and nonempty captured stderr. -/
theorem C6_exit_code_mismatch_witness :
    check_result (exCfg false) (exTest false [("a.out", "/tmp/o")] none)
      ⟨1, "boom"⟩ 2 (fun _ => none) =
    some
      { success := false
        msg := ["not ok 2 - a.t", "# exit code: 1"]
        copies := []
        stderr_out := some "boom" } := by
  rw [C6_exit_code_mismatch _ _ _ _ _ (by decide)]
  decide

/-! ## Claim C9 -/

/-- C9: overriding an environment with directive text changes at most
`command`, `out_files`, `args`, `return_code`, and `todo`; whenever it
succeeds, the fields `name`, `default`, `out_base`, `out_dir`,
`opts_file`, `diff_cmd`, and `binary` are unchanged. -/
theorem C9_override_frame (env : TestEnv) (contents : String)
    (env' : TestEnv) (h : override_env env contents = some env') :
    env'.name = env.name ∧ env'.default = env.default ∧
    env'.out_base = env.out_base ∧ env'.out_dir = env.out_dir ∧
    env'.opts_file = env.opts_file ∧ env'.diff_cmd = env.diff_cmd ∧
    env'.binary = env.binary := by
  unfold override_env at h
  cases hB : buildOutputs (extract_options contents "out") with
  | none => rw [hB] at h; cases h
  | some outputs =>
    rw [hB] at h
    cases hR : newReturnCode env contents with
    | none => rw [hR] at h; cases h
    | some rc =>
      rw [hR] at h
      cases h
      exact ⟨rfl, rfl, rfl, rfl, rfl, rfl, rfl⟩

/-- Witness for C9: a concrete override that changes the command keeps
all the frame fields. -/
theorem C9_override_frame_witness :
    ({ exEnv "out" "." with command := some "echo x" } : TestEnv).name =
        (exEnv "out" ".").name ∧
    ({ exEnv "out" "." with command := some "echo x" } : TestEnv).default =
        (exEnv "out" ".").default ∧
    ({ exEnv "out" "." with command := some "echo x" } : TestEnv).out_base =
        (exEnv "out" ".").out_base ∧
    ({ exEnv "out" "." with command := some "echo x" } : TestEnv).out_dir =
        (exEnv "out" ".").out_dir ∧
    ({ exEnv "out" "." with command := some "echo x" } : TestEnv).opts_file =
        (exEnv "out" ".").opts_file ∧
    ({ exEnv "out" "." with command := some "echo x" } : TestEnv).diff_cmd =
        (exEnv "out" ".").diff_cmd ∧
    ({ exEnv "out" "." with command := some "echo x" } : TestEnv).binary =
        (exEnv "out" ".").binary :=
  C9_override_frame (exEnv "out" ".") "CMD: echo x" _ (by decide)

/-! ## Claim C7 -/

/-- C7: with a matching exit code, artifacts are written exactly when
the save flag is set and at least one artifact differs, and then every
configured pair is copied actual-over-expected — all of them, not only
the differing ones; otherwise nothing is written. -/
theorem C7_save_updates_all (cfg : Config) (test : Test)
    (proc : CompletedProc) (idx : Nat) (fs : String → Option String)
    (ds ms : List String) (r : CheckOutcome)
    (hrc : proc.returncode = test.return_code)
    (hcmp : compare_outputs fs test.out_files = some (ds, ms))
    (hres : check_result cfg test proc idx fs = some r) :
    r.copies =
      if cfg.save = true ∧ ds ≠ [] then
        test.out_files.map (fun p => (p.2, p.1))
      else [] := by
  rw [check_result, if_neg (by simp [hrc]), hcmp] at hres
  cases hres
  simp only [check_result_verdict, verdict_update]
  by_cases hs : cfg.save <;>
    cases ds with
    | nil => simp [hs]
    | cons a t => simp [hs]

/-- Witness for C7: a concrete run with `save` set and one of two
artifacts differing copies both configured pairs. -/
theorem C7_save_updates_all_witness :
    ({ success := false
       msg := ["not ok 3 - a.t envA # skip: updated a.out, a.err; differing: a.out"]
       copies := [("/tmp/o", "a.out"), ("/tmp/e", "a.err")]
       stderr_out := none } : CheckOutcome).copies =
      if (exCfg true).save = true ∧ (["a.out"] : List String) ≠ [] then
        (exTest false [("a.out", "/tmp/o"), ("a.err", "/tmp/e")]
          (some "envA")).out_files.map (fun p => (p.2, p.1))
      else [] :=
  C7_save_updates_all (exCfg true)
    (exTest false [("a.out", "/tmp/o"), ("a.err", "/tmp/e")] (some "envA"))
    ⟨0, ""⟩ 3 exFsTwo ["a.out"] [] _ (by decide) (by decide) (by decide)

/-! ## Claim C1 -/

/-- C1 counterexample: a todo-marked test whose output differs from the
saved artifact still counts as passing, but its TAP line reads
`not ok 1 - a.t # todo; differing: a.out`, not the `ok 1 - a.t # todo`
line the claim asserts. -/
theorem C1_todo_line_counterexample :
    (check_result (exCfg false) (exTest true [("a.out", "/tmp/o")] none)
      ⟨0, ""⟩ 1 exFsDiffer).map (fun r => (r.success, r.msg)) =
    some (true, ["not ok 1 - a.t # todo; differing: a.out"]) := by
  decide

/-- C1 amended: with a matching exit code, the success boolean is true
iff no artifact differs or the test is todo-marked, but the TAP line's
ok marker reflects only whether artifacts differ (produced by
`tap_line` applied to that emptiness); an unsaved differing todo test
gets a trailing comment whose directive list starts with `todo`. -/
theorem C1_success_and_line (cfg : Config) (test : Test)
    (proc : CompletedProc) (idx : Nat) (fs : String → Option String)
    (ds ms : List String)
    (hrc : proc.returncode = test.return_code)
    (hcmp : compare_outputs fs test.out_files = some (ds, ms)) :
    ∃ r, check_result cfg test proc idx fs = some r ∧
      r.success = (ds.isEmpty || test.todo) ∧
      (∃ d, r.msg = [tap_line ds.isEmpty idx test ++ d]) ∧
      (cfg.save = false → test.todo = true → ds ≠ [] →
        ∃ rest, r.msg =
          [tap_line false idx test ++ " # " ++
            String.intercalate "; " ("todo" :: rest)]) := by
  refine ⟨check_result_verdict cfg test idx ds ms, ?_, ?_, ?_, ?_⟩
  · rw [check_result, if_neg (by simp [hrc]), hcmp]
  · simp only [check_result_verdict, verdict_success]
    by_cases ht : test.todo <;> simp [ht]
  · simp only [check_result_verdict, verdict_line]
    cases hE : (verdict_directives cfg test ds ms).isEmpty
    · refine ⟨" # " ++ String.intercalate "; " (verdict_directives cfg test ds ms), ?_⟩
      simp only [hE, Bool.not_false, if_true]
      rw [String.append_assoc]
    · exact ⟨"", by simp [hE, String.append_empty]⟩
  · intro hsave ht hd
    have hde : ds.isEmpty = false := by
      cases ds with
      | nil => exact absurd rfl hd
      | cons a t => rfl
    simp only [check_result_verdict, verdict_line, verdict_directives,
      verdict_update, hsave, ht, hde, Bool.false_and, Bool.not_false,
      Bool.true_and, Bool.and_self, if_true, if_false, List.nil_append,
      List.singleton_append, List.cons_append, List.isEmpty_cons,
      ite_true, ite_false]
    exact ⟨_, rfl⟩

/-- Witness for C1: the amended statement instantiated at the concrete
todo-and-differing scenario. -/
theorem C1_success_and_line_witness :
    ∃ r, check_result (exCfg false) (exTest true [("a.out", "/tmp/o")] none)
        ⟨0, ""⟩ 1 exFsDiffer = some r ∧
      r.success = ((["a.out"] : List String).isEmpty || (exTest true [("a.out", "/tmp/o")] none).todo) ∧
      (∃ d, r.msg = [tap_line (["a.out"] : List String).isEmpty 1
        (exTest true [("a.out", "/tmp/o")] none) ++ d]) ∧
      ((exCfg false).save = false →
        (exTest true [("a.out", "/tmp/o")] none).todo = true →
        (["a.out"] : List String) ≠ [] →
        ∃ rest, r.msg =
          [tap_line false 1 (exTest true [("a.out", "/tmp/o")] none) ++ " # " ++
            String.intercalate "; " ("todo" :: rest)]) :=
  C1_success_and_line (exCfg false) (exTest true [("a.out", "/tmp/o")] none)
    ⟨0, ""⟩ 1 exFsDiffer ["a.out"] [] (by decide) (by decide)

/-! ## Claim C3 -/

/-- `dictInsert` never empties a dictionary. -/
theorem dictInsert_ne_nil (m : List (String × String)) (k v : String) :
    dictInsert m k v ≠ [] := by
  cases m with
  | nil => simp [dictInsert]
  | cons p t =>
    unfold dictInsert
    split <;> simp

/-- A fold of dictionary insertions is non-empty as soon as the seed or
the key list is. -/
theorem foldl_dictInsert_ne_nil (f g : String × String → String) :
    ∀ (l : List (String × String)) (m : List (String × String)),
      m ≠ [] ∨ l ≠ [] →
      l.foldl (fun m kv => dictInsert m (f kv) (g kv)) m ≠ [] := by
  intro l
  induction l with
  | nil =>
    intro m h
    rcases h with h | h
    · simpa using h
    · exact absurd rfl h
  | cons kv t ih =>
    intro m _
    exact ih (dictInsert m (f kv) (g kv)) (Or.inl (dictInsert_ne_nil _ _ _))

/-- C3 counterexample: a configuration that binds the `output` key to an
empty table produces a test whose output mapping is empty — the stdout
default only applies when the key is absent, so the claimed invariant
fails. -/
theorem C3_empty_output_counterexample :
    (override_env (get_env { output := some [] } none) "").map
      (fun e => get_out_files e "a.t" false) = some [] := by
  decide

/-- C3 amended: the output mapping of a resolved test is non-empty
provided the configuration does not bind `output` to an empty table:
with the key absent it defaults to the single stdout entry, and `OUT`
directives only replace the mapping when at least one was extracted. -/
theorem C3_out_files_nonempty (cd : ConfigData) (name : Option String)
    (contents path : String) (is_dir : Bool) (env' : TestEnv)
    (hod : cd.output ≠ some [])
    (h : override_env (get_env cd name) contents = some env') :
    get_out_files env' path is_dir ≠ [] := by
  have hof : env'.out_files ≠ [] := by
    unfold override_env at h
    cases hB : buildOutputs (extract_options contents "out") with
    | none => rw [hB] at h; cases h
    | some outputs =>
      rw [hB] at h
      cases hR : newReturnCode (get_env cd name) contents with
      | none => rw [hR] at h; cases h
      | some rc =>
        rw [hR] at h
        cases h
        by_cases ho : outputs = []
        · simp only [ho, ne_eq, not_true_eq_false, if_false, get_env]
          cases hco : cd.output with
          | none => simp
          | some l =>
            cases l with
            | nil => exact absurd hco hod
            | cons a t => simp
        · simp [ho]
  unfold get_out_files
  exact foldl_dictInsert_ne_nil _ _ env'.out_files [] (Or.inr hof)

/-- Witness for C3: the default configuration (no `output` key) yields
a non-empty output mapping after an empty override. -/
theorem C3_out_files_nonempty_witness :
    get_out_files (get_env {} none) "a.t" false ≠ [] :=
  C3_out_files_nonempty {} none "" "a.t" false (get_env {} none)
    (by decide) (by decide)

/-! ## Claim C10 -/

/-- The `OUT` dict comprehension succeeds exactly when every directive
value splits into exactly two whitespace-separated tokens. -/
theorem buildOutputsAux_isSome_iff :
    ∀ (strs : List String) (m : List (String × String)),
      (buildOutputsAux m strs).isSome = true ↔
        ∀ o ∈ strs, (pySplit o).length = 2 := by
  intro strs
  induction strs with
  | nil => simp [buildOutputsAux]
  | cons o os ih =>
    intro m
    cases hS : pySplit o with
    | nil => simp [buildOutputsAux, hS]
    | cons a t =>
      cases t with
      | nil => simp [buildOutputsAux, hS]
      | cons b u =>
        cases u with
        | nil => simp [buildOutputsAux, hS, ih]
        | cons c w => simp [buildOutputsAux, hS]

/-- C10 counterexample: a `RETURN` directive whose value is not an
integer also aborts environment overriding, even though every `OUT`
directive value (vacuously) splits into exactly two tokens — so
splitting `OUT` values well is not equivalent to success. -/
theorem C10_return_parse_counterexample :
    override_env (exEnv "out" ".") "RETURN: xyz" = none ∧
    ∀ o ∈ extract_options "RETURN: xyz" "out", (pySplit o).length = 2 := by
  decide

/-- C10 amended: environment overriding succeeds exactly when every
extracted `OUT` directive value splits into exactly two
whitespace-separated tokens and the first `RETURN` directive value, if
present and nonempty, parses as an integer; any violation is an
unhandled error aborting resolution rather than a per-test failure. -/
theorem C10_override_succeeds_iff (env : TestEnv) (contents : String) :
    (override_env env contents).isSome = true ↔
      ((∀ o ∈ extract_options contents "out", (pySplit o).length = 2) ∧
       (∀ s, extract_single_option contents "return" = some s → s ≠ "" →
          (pyInt s).isSome = true)) := by
  unfold override_env
  cases hB : buildOutputs (extract_options contents "out") with
  | none =>
    have hBn : ¬(buildOutputs (extract_options contents "out")).isSome = true := by
      simp [hB]
    rw [buildOutputs] at hBn
    rw [buildOutputsAux_isSome_iff] at hBn
    refine iff_of_false (by simp) ?_
    exact fun hcon => hBn hcon.1
  | some outputs =>
    have hBs : (buildOutputs (extract_options contents "out")).isSome = true := by
      simp [hB]
    rw [buildOutputs] at hBs
    rw [buildOutputsAux_isSome_iff] at hBs
    cases hR : newReturnCode env contents with
    | none =>
      refine iff_of_false (by simp) ?_
      rintro ⟨-, hrc⟩
      simp only [newReturnCode] at hR
      cases hE : extract_single_option contents "return" with
      | none => simp only [hE] at hR; simp at hR
      | some s =>
        simp only [hE] at hR
        by_cases hs : s = ""
        · rw [hs] at hR; simp at hR
        · have hi := hrc s hE hs
          simp only [hs, ne_eq, not_false_eq_true, ite_true, if_true] at hR
          rw [hR] at hi
          simp at hi
    | some rc =>
      refine iff_of_true rfl ⟨hBs, ?_⟩
      intro s hE hs
      simp only [newReturnCode, hE, hs, ne_eq, not_false_eq_true, ite_true,
        if_true] at hR
      simp [hR]

/-! ## Claim C8 -/

/-- Looking up a submitted index in the pool's finished store returns
that test's result, whatever the completion order, as soon as the
index was completed. -/
theorem lookup_pool (exec : ExecFn) (cfg : Config) (tests : List Test) :
    ∀ (order : List Nat) (i : Nat) (t : Test),
      tests[i]? = some t → i ∈ order →
      (pool_results exec cfg tests order).lookup i =
        some (exec cfg t (i + 1)) := by
  intro order
  induction order with
  | nil => intro i t _ hmem; cases hmem
  | cons j rest ih =>
    intro i t ht hmem
    unfold pool_results
    rw [List.filterMap_cons]
    cases hj : tests[j]? with
    | none =>
      have hij : i ≠ j := by
        rintro rfl
        rw [ht] at hj
        cases hj
      have : i ∈ rest := by
        cases hmem with
        | head => exact absurd rfl hij
        | tail _ hmem => exact hmem
      simpa [pool_results] using ih i t ht this
    | some tj =>
      by_cases hij : i = j
      · subst hij
        rw [ht] at hj
        cases hj
        simp [List.lookup]
      · have hmem' : i ∈ rest := by
          cases hmem with
          | head => exact absurd rfl hij
          | tail _ hmem => exact hmem
        have hih := ih i t ht hmem'
        simp only [pool_results] at hih
        rw [show Option.map (fun t => (j, exec cfg t (j + 1))) (some tj) =
            some (j, exec cfg tj (j + 1)) from rfl]
        rw [List.lookup]
        rw [show (i == j) = false from by simpa using hij]
        exact hih

/-- Collecting futures in submission order over a store that answers
every submitted index reproduces the sequential fold. -/
theorem collect_eq (exec : ExecFn) (cfg : Config)
    (pool : List (Nat × (Bool × List String))) :
    ∀ (l : List (Nat × Test)) (acc : Bool × List String),
      (∀ p ∈ l, pool.lookup p.1 = some (exec cfg p.2 (p.1 + 1))) →
      l.foldlM (fun acc p =>
          (pool.lookup p.1).map
            (fun r => (acc.1 && r.1, acc.2 ++ r.2))) acc =
        some (l.foldl (fun acc p =>
          let r := exec cfg p.2 (p.1 + 1)
          (acc.1 && r.1, acc.2 ++ r.2)) acc) := by
  intro l
  induction l with
  | nil => intro acc _; rfl
  | cons p t ih =>
    intro acc h
    have hp := h p (List.mem_cons_self p t)
    rw [List.foldlM_cons, hp]
    exact ih _ (fun q hq => h q (List.mem_cons_of_mem p hq))

/-- C8: whenever the pool completes the submitted tests in any order
covering every submitted index, the parallel scheduler produces exactly
the sequential scheduler's report lines, in the same order, and the
same overall success boolean, because results are collected in
submission order. -/
theorem C8_parallel_refines_sequential (exec : ExecFn) (cfg : Config)
    (tests : List Test) (order : List Nat)
    (hperm : order.Perm (List.range tests.length)) :
    run_tests_par exec cfg tests order =
      some (run_tests_seq exec cfg tests) := by
  unfold run_tests_par run_tests_seq
  apply collect_eq
  intro p hp
  have hidx : tests[p.1]? = some p.2 := by
    obtain ⟨i, t⟩ := p
    exact List.mk_mem_enum_iff_getElem?.mp hp
  have hlen : p.1 < tests.length := by
    by_contra hlt
    rw [List.getElem?_eq_none (by omega)] at hidx
    cases hidx
  have hmem : p.1 ∈ order := hperm.mem_iff.2 (List.mem_range.2 hlen)
  exact lookup_pool exec cfg tests order p.1 p.2 hidx hmem

/-! ## Claim C2 -/

/-- A list is a Boolean prefix of itself followed by anything. -/
theorem isPrefixOf_self_append (l r : List Char) :
    l.isPrefixOf (l ++ r) = true := by
  induction l with
  | nil => simp [List.isPrefixOf]
  | cons c t ih => simp [List.isPrefixOf, ih]

/-- Scanning the empty text yields nothing at any fuel. -/
theorem scanF_nil (key : List Char) (fuel : Nat) (prev : Bool) :
    scanOptionsF key fuel prev [] = [] := by
  cases fuel <;> rfl

/-- `takeWhile`/`dropWhile` across an append: a block where the
predicate always holds is taken whole, and the scan stops at the start
of the remainder when its head fails the predicate (or it is empty). -/
theorem takeWhile_dropWhile_append (p : Char → Bool) :
    ∀ (l r : List Char), (∀ c ∈ l, p c = true) →
      (r = [] ∨ ∃ d, r.head? = some d ∧ p d = false) →
      (l ++ r).takeWhile p = l ∧ (l ++ r).dropWhile p = r := by
  intro l
  induction l with
  | nil =>
    intro r _ hr
    rcases hr with rfl | ⟨d, hd, hpd⟩
    · simp
    · cases r with
      | nil => simp
      | cons x t =>
        cases hd
        simp [List.takeWhile, List.dropWhile, hpd]
  | cons c t ih =>
    intro r hl hr
    have hc : p c = true := hl c (List.mem_cons_self c t)
    have := ih r (fun d hd => hl d (List.mem_cons_of_mem c hd)) hr
    simp [List.takeWhile, List.dropWhile, hc, this.1, this.2]

/-- The scanner walks over a block containing no occurrence of the
key's first character without matching, updating the word-boundary
state to that of the block's characters. -/
theorem scanF_skip (kh : Char) (kt : List Char) :
    ∀ (chunk rest : List Char) (fuel : Nat) (prev : Bool),
      (chunk ++ rest).length ≤ fuel →
      (∀ c ∈ chunk, c ≠ kh) →
      scanOptionsF (kh :: kt) fuel prev (chunk ++ rest) =
        scanOptionsF (kh :: kt) (fuel - chunk.length)
          (chunk.foldl (fun _ c => isWordChar c) prev) rest := by
  intro chunk
  induction chunk with
  | nil => intro rest fuel prev _ _; simp
  | cons c ch ih =>
    intro rest fuel prev hfuel hno
    have hc : c ≠ kh := hno c (List.mem_cons_self c ch)
    cases fuel with
    | zero => simp at hfuel
    | succ f =>
      have hpre : ((kh :: kt) ++ [':']).isPrefixOf (c :: (ch ++ rest)) = false := by
        have hbeq : (kh == c) = false := by
          rw [beq_eq_false_iff_ne]
          exact fun h => hc h.symm
        simp [List.isPrefixOf, hbeq]
      rw [List.cons_append, scanOptionsF, hpre, Bool.and_false, if_neg (by simp)]
      have hf : (ch ++ rest).length ≤ f := by
        simp only [List.cons_append, List.length_cons] at hfuel
        omega
      rw [ih rest f (isWordChar c) hf
        (fun d hd => hno d (List.mem_cons_of_mem c hd))]
      have harith : f + 1 - (c :: ch).length = f - ch.length := by
        simp only [List.length_cons]
        omega
      rw [harith, List.foldl_cons]

/-- The scanner at a directive occurrence: the key at a word boundary,
a colon, a nonempty whitespace run, then a nonempty value with no
newline whose head is not whitespace, followed by a newline-headed (or
empty) remainder, produces exactly that value and resumes after it.
The value itself is arbitrary — it may mention the key. -/
theorem scanF_match (kh : Char) (kt : List Char) (hkhw : isWordChar kh = true)
    (ws v rest : List Char) (fuel : Nat)
    (hfuel : ((kh :: kt) ++ ':' :: (ws ++ (v ++ rest))).length ≤ fuel)
    (hws : ws ≠ []) (hwsp : ∀ c ∈ ws, isSpaceChar c = true)
    (hv : v ≠ [])
    (hvh : ∀ c, v.head? = some c → isSpaceChar c = false)
    (hvn : ∀ c ∈ v, c ≠ '\n')
    (hrest : rest = [] ∨ rest.head? = some '\n') :
    scanOptionsF (kh :: kt) fuel false ((kh :: kt) ++ ':' :: (ws ++ (v ++ rest))) =
      v :: scanOptionsF (kh :: kt) (fuel - 1)
        (match v.getLast? with
         | some d => isWordChar d
         | none => false) rest := by
  cases fuel with
  | zero => simp at hfuel
  | succ f =>
    cases v with
    | nil => exact absurd rfl hv
    | cons v0 vt =>
      have hshape : (kh :: kt) ++ ':' :: (ws ++ ((v0 :: vt) ++ rest)) =
          kh :: (kt ++ ':' :: (ws ++ ((v0 :: vt) ++ rest))) := by simp
      have hpre : ((kh :: kt) ++ [':']).isPrefixOf
          (kh :: (kt ++ ':' :: (ws ++ ((v0 :: vt) ++ rest)))) = true := by
        have h2 : kh :: (kt ++ ':' :: (ws ++ ((v0 :: vt) ++ rest))) =
            ((kh :: kt) ++ [':']) ++ (ws ++ ((v0 :: vt) ++ rest)) := by simp
        rw [h2, isPrefixOf_self_append]
      have hdrop : (kh :: (kt ++ ':' :: (ws ++ ((v0 :: vt) ++ rest)))).drop
          ((kh :: kt).length + 1) = ws ++ ((v0 :: vt) ++ rest) := by
        have h2 : kh :: (kt ++ ':' :: (ws ++ ((v0 :: vt) ++ rest))) =
            ((kh :: kt) ++ [':']) ++ (ws ++ ((v0 :: vt) ++ rest)) := by simp
        have h3 : (kh :: kt).length + 1 = ((kh :: kt) ++ [':']).length := by simp
        rw [h2, h3, List.drop_left]
      have hs0 : isSpaceChar v0 = false := hvh v0 rfl
      have htws := takeWhile_dropWhile_append isSpaceChar ws ((v0 :: vt) ++ rest)
        hwsp (Or.inr ⟨v0, rfl, hs0⟩)
      have htd := takeWhile_dropWhile_append (fun d => !(d == '\n'))
        (v0 :: vt) rest
        (by
          intro c hcm
          have := hvn c hcm
          simp [this])
        (by
          rcases hrest with rfl | hh
          · exact Or.inl rfl
          · cases rest with
            | nil => exact Or.inl rfl
            | cons r0 rt =>
              cases hh
              exact Or.inr ⟨'\n', rfl, by simp⟩)
      rw [hshape, scanOptionsF, hpre]
      rw [show (false != isWordChar kh) = true from by rw [hkhw]; rfl]
      rw [if_pos (by simp)]
      simp only [hdrop]
      rw [htws.1, htws.2]
      rw [if_pos (by simpa using List.length_pos.mpr hws)]
      rw [htd.1, htd.2]
      simp

/-- A pattern that is not a Boolean prefix of a text does not become
one when the text is extended by a newline-headed (or empty) remainder,
provided the pattern contains no newline. -/
theorem isPrefixOf_append_nl :
    ∀ (pat x rest : List Char),
      pat.isPrefixOf x = false →
      (rest = [] ∨ rest.head? = some '\n') →
      ('\n' : Char) ∉ pat →
      pat.isPrefixOf (x ++ rest) = false := by
  intro pat
  induction pat with
  | nil =>
    intro x rest hx _ _
    simp [List.isPrefixOf] at hx
  | cons p ps ih =>
    intro x rest hx hrest hnl
    cases x with
    | nil =>
      rcases hrest with rfl | hh
      · exact hx
      · cases rest with
        | nil => exact hx
        | cons r rs =>
          cases hh
          have hp : (p == '\n') = false := by
            rw [beq_eq_false_iff_ne]
            exact fun h => hnl (h ▸ List.mem_cons_self p ps)
          simp [List.isPrefixOf, hp]
    | cons a as =>
      rw [List.cons_append]
      by_cases hpa : p = a
      · subst hpa
        simp only [List.isPrefixOf, beq_self_eq_true, Bool.true_and] at hx ⊢
        exact ih as rest hx hrest (fun h => hnl (List.mem_cons_of_mem p h))
      · have : (p == a) = false := by
          rw [beq_eq_false_iff_ne]
          exact hpa
        simp [List.isPrefixOf, this]

/-- The scanner walks over a block containing no occurrence of the key
followed by a colon without matching, whatever other characters the
block holds, as long as the remainder starts at a line break.  The
word-boundary state becomes that of the block's last character. -/
theorem scanF_skip_noOccur (kh : Char) (kt : List Char)
    (hnl : ('\n' : Char) ∉ (kh :: kt) ++ [':']) :
    ∀ (chunk rest : List Char) (fuel : Nat) (prev : Bool),
      (chunk ++ rest).length ≤ fuel →
      hasOccur ((kh :: kt) ++ [':']) chunk = false →
      (rest = [] ∨ rest.head? = some '\n') →
      scanOptionsF (kh :: kt) fuel prev (chunk ++ rest) =
        scanOptionsF (kh :: kt) (fuel - chunk.length)
          (chunk.foldl (fun _ c => isWordChar c) prev) rest := by
  intro chunk
  induction chunk with
  | nil => intro rest fuel prev _ _ _; simp
  | cons c ch ih =>
    intro rest fuel prev hfuel hocc hrest
    have hocc2 : ((kh :: kt) ++ [':']).isPrefixOf (c :: ch) = false ∧
        hasOccur ((kh :: kt) ++ [':']) ch = false := by
      rw [hasOccur, Bool.or_eq_false_iff] at hocc
      exact hocc
    cases fuel with
    | zero => simp at hfuel
    | succ f =>
      have hpre : ((kh :: kt) ++ [':']).isPrefixOf (c :: (ch ++ rest)) = false := by
        have h := isPrefixOf_append_nl ((kh :: kt) ++ [':']) (c :: ch) rest
          hocc2.1 hrest hnl
        simpa using h
      rw [List.cons_append, scanOptionsF, hpre, Bool.and_false, if_neg (by simp)]
      have hf : (ch ++ rest).length ≤ f := by
        simp only [List.cons_append, List.length_cons] at hfuel
        omega
      rw [ih rest f (isWordChar c) hf hocc2.2 hrest]
      have harith : f + 1 - (c :: ch).length = f - ch.length := by
        simp only [List.length_cons]
        omega
      rw [harith, List.foldl_cons]

/-- Scanning the newline-join of classified lines extracts exactly the
directive lines' values, in document order: plain lines (no occurrence
of the upper-cased key followed by a colon) contribute nothing, and
each directive line contributes its value. -/
theorem scan_lines (kh : Char) (kt : List Char)
    (hkw : ∀ c ∈ (kh :: kt), isWordChar c = true) :
    ∀ (items : List LineItem) (fuel : Nat),
      (∀ it ∈ items, itemOk (kh :: kt) it = true) →
      (joinLines (items.map (itemLine (kh :: kt)))).length ≤ fuel →
      scanOptionsF (kh :: kt) fuel false
          (joinLines (items.map (itemLine (kh :: kt)))) =
        items.filterMap itemVal := by
  have hkhw : isWordChar kh = true := hkw kh (List.mem_cons_self kh kt)
  have hnlk : ('\n' : Char) ∉ (kh :: kt) ++ [':'] := by
    intro hmem
    rcases List.mem_append.mp hmem with h | h
    · have := hkw '\n' h
      exact absurd this (by decide)
    · have : ('\n' : Char) = ':' := List.mem_singleton.mp h
      exact absurd this (by decide)
  have hnlskip : ∀ c ∈ (['\n'] : List Char), c ≠ kh := by
    intro c hc
    have hc' : c = '\n' := List.mem_singleton.mp hc
    subst hc'
    intro h
    rw [← h] at hkhw
    exact absurd hkhw (by decide)
  intro items
  induction items with
  | nil =>
    intro fuel _ _
    simp only [List.map_nil, joinLines, List.filterMap_nil]
    exact scanF_nil _ _ _
  | cons it its ih =>
    intro fuel hok hfuel
    have hokh := hok it (List.mem_cons_self it its)
    have hokt : ∀ x ∈ its, itemOk (kh :: kt) x = true :=
      fun x hx => hok x (List.mem_cons_of_mem it hx)
    cases its with
    | nil =>
      cases it with
      | plain l =>
        simp only [List.map_cons, List.map_nil, joinLines, itemLine,
          List.filterMap_cons, itemVal, List.filterMap_nil]
        have hocc : hasOccur ((kh :: kt) ++ [':']) l = false := by
          simp only [itemOk, Bool.not_eq_eq_eq_not, Bool.not_true] at hokh
          exact hokh
        have h := scanF_skip_noOccur kh kt hnlk l [] fuel false
          (by simpa using (by
            simpa [joinLines, itemLine] using hfuel : l.length ≤ fuel))
          hocc (Or.inl rfl)
        rw [List.append_nil] at h
        rw [h, scanF_nil]
      | directive ws v =>
        simp only [List.map_cons, List.map_nil, joinLines,
          List.filterMap_cons, itemVal, List.filterMap_nil]
        simp only [itemOk, Bool.and_eq_true, List.all_eq_true,
          Bool.not_eq_eq_eq_not, Bool.not_true, List.isEmpty_eq_false] at hokh
        obtain ⟨⟨⟨⟨hws, hwsp⟩, hv⟩, hvh⟩, hvn⟩ := hokh
        rw [itemLine]
        rw [show ws ++ v = ws ++ (v ++ []) from by simp]
        rw [scanF_match kh kt hkhw ws v [] fuel
          (by simpa [joinLines, itemLine] using hfuel)
          hws (fun c hc => hwsp c hc) hv
          (by
            intro c hc
            rw [hc] at hvh
            simpa using hvh)
          (by
            intro c hc
            have := hvn c hc
            simpa using this)
          (Or.inl rfl)]
        rw [scanF_nil]
    | cons it2 its2 =>
      have hjoin : joinLines (List.map (itemLine (kh :: kt)) (it :: it2 :: its2)) =
          itemLine (kh :: kt) it ++
            '\n' :: joinLines (List.map (itemLine (kh :: kt)) (it2 :: its2)) := by
        simp only [List.map_cons, joinLines]
      rw [hjoin] at hfuel ⊢
      cases it with
      | plain l =>
        have hocc : hasOccur ((kh :: kt) ++ [':']) l = false := by
          simp only [itemOk, Bool.not_eq_eq_eq_not, Bool.not_true] at hokh
          exact hokh
        have h1 := scanF_skip_noOccur kh kt hnlk l
          ('\n' :: joinLines (List.map (itemLine (kh :: kt)) (it2 :: its2)))
          fuel false (by simpa [itemLine] using hfuel) hocc (Or.inr rfl)
        rw [show itemLine (kh :: kt) (LineItem.plain l) = l from rfl, h1]
        have h2 := scanF_skip kh kt ['\n']
          (joinLines (List.map (itemLine (kh :: kt)) (it2 :: its2)))
          (fuel - l.length)
          (l.foldl (fun _ c => isWordChar c) false)
          (by
            simp only [itemLine, List.length_append, List.length_cons,
              List.singleton_append] at hfuel ⊢
            omega)
          hnlskip
        simp only [List.singleton_append, List.length_singleton,
          List.foldl_cons, List.foldl_nil] at h2
        rw [h2]
        rw [show isWordChar '\n' = false from by decide]
        rw [ih (fuel - l.length - 1) hokt
          (by
            simp only [itemLine, List.length_append, List.length_cons] at hfuel ⊢
            omega)]
        simp [List.filterMap_cons, itemVal]
      | directive ws v =>
        simp only [itemOk, Bool.and_eq_true, List.all_eq_true,
          Bool.not_eq_eq_eq_not, Bool.not_true, List.isEmpty_eq_false] at hokh
        obtain ⟨⟨⟨⟨hws, hwsp⟩, hv⟩, hvh⟩, hvn⟩ := hokh
        rw [show itemLine (kh :: kt) (LineItem.directive ws v) ++
            '\n' :: joinLines (List.map (itemLine (kh :: kt)) (it2 :: its2)) =
            (kh :: kt) ++ ':' :: (ws ++ (v ++
              ('\n' :: joinLines (List.map (itemLine (kh :: kt)) (it2 :: its2)))))
          from by simp [itemLine]]
        rw [scanF_match kh kt hkhw ws v
          ('\n' :: joinLines (List.map (itemLine (kh :: kt)) (it2 :: its2)))
          fuel
          (by
            simp only [itemLine, List.length_append, List.length_cons] at hfuel ⊢
            omega)
          hws (fun c hc => hwsp c hc) hv
          (by
            intro c hc
            rw [hc] at hvh
            simpa using hvh)
          (by
            intro c hc
            have := hvn c hc
            simpa using this)
          (Or.inr rfl)]
        have h2 := scanF_skip kh kt ['\n']
          (joinLines (List.map (itemLine (kh :: kt)) (it2 :: its2)))
          (fuel - 1)
          (match v.getLast? with
           | some d => isWordChar d
           | none => false)
          (by
            simp only [itemLine, List.length_append, List.length_cons,
              List.singleton_append] at hfuel ⊢
            omega)
          hnlskip
        simp only [List.singleton_append, List.length_singleton,
          List.foldl_cons, List.foldl_nil] at h2
        rw [h2]
        rw [show isWordChar '\n' = false from by decide]
        rw [ih (fuel - 1 - 1) hokt
          (by
            simp only [itemLine, List.length_append, List.length_cons] at hfuel ⊢
            omega)]
        simp [List.filterMap_cons, itemVal]

/-- C2 counterexample: directive matching is case-sensitive — the
lower-case line `cmd: echo hi` is not extracted for key `cmd` (the
claim requires `["echo hi"]`), while the upper-cased line is. -/
theorem C2_case_sensitivity_counterexample :
    extract_options "cmd: echo hi" "cmd" = [] ∧
    extract_options "CMD: echo hi" "cmd" = ["echo hi"] := by
  decide

/-- C2 amended: extraction is case-sensitive on the upper-cased key.
For every test-unit text assembled as newline-separated classified
lines — each either a directive line (the upper-cased key, a colon, a
whitespace run, then a value taken to the end of the line, the value
free to mention the key itself) or a line with no occurrence of the
upper-cased key followed by a colon (which covers every line carrying
the key in lower case) — extraction returns exactly the directive
values in document order, and the single-option variant returns the
first such value or absence. -/
theorem C2_directive_extraction_amended (key K T : String) (kh : Char)
    (kt : List Char) (items : List LineItem)
    (hK : K.data = key.data.map upperChar)
    (hKd : K.data = kh :: kt)
    (hkw : ∀ c ∈ K.data, isWordChar c = true)
    (hT : T.data = joinLines (items.map (itemLine K.data)))
    (hok : ∀ it ∈ items, itemOk K.data it = true) :
    extract_options T key = (items.filterMap itemVal).map List.asString ∧
    extract_single_option T key =
      ((items.filterMap itemVal).map List.asString).head? := by
  have hkk : key.data.map upperChar = kh :: kt := by
    rw [← hK, hKd]
  rw [hKd] at hT hok hkw
  have h1 : extract_options T key =
      (items.filterMap itemVal).map List.asString := by
    unfold extract_options
    rw [hkk, hT]
    rw [scan_lines kh kt hkw items _ hok (Nat.le_refl _)]
  refine ⟨h1, ?_⟩
  rw [extract_single_option, h1]
  cases items.filterMap itemVal with
  | nil => rfl
  | cons v vs => rfl

/-- Witness for C2: a four-line text mixing a plain line, a directive
whose value itself contains `CMD:`, a lower-case `cmd:` line that is
not matched, and a directive with a multi-character whitespace run. -/
theorem C2_directive_extraction_amended_witness :
    extract_options "hello world\nCMD: run CMD: again\ncmd: lower\nCMD: \techo bye"
        "cmd" = ["run CMD: again", "echo bye"] ∧
    extract_single_option "hello world\nCMD: run CMD: again\ncmd: lower\nCMD: \techo bye"
        "cmd" = some "run CMD: again" := by
  have h := C2_directive_extraction_amended "cmd" "CMD"
    "hello world\nCMD: run CMD: again\ncmd: lower\nCMD: \techo bye" 'C' "MD".data
    [LineItem.plain "hello world".data,
     LineItem.directive [' '] "run CMD: again".data,
     LineItem.plain "cmd: lower".data,
     LineItem.directive [' ', '\t'] "echo bye".data]
    (by decide) (by decide) (by decide) (by decide) (by decide)
  exact ⟨h.1.trans (by decide), h.2.trans (by decide)⟩

/-- Witness for C8: two concrete tests completed in reverse order still
report in submission order with the sequential result. -/
theorem C8_parallel_refines_sequential_witness :
    run_tests_par (fun _ t i => (t.todo, [toString i ++ " " ++ t.test_path]))
        (exCfg false)
        [exTest true [] none, exTest false [] none] [1, 0] =
      some (run_tests_seq (fun _ t i => (t.todo, [toString i ++ " " ++ t.test_path]))
        (exCfg false)
        [exTest true [] none, exTest false [] none]) :=
  C8_parallel_refines_sequential _ _ _ _ (by decide)
